import Mathlib

/-!
Verification of the flow-field navigation core of the `tinyswords` repository
(`src/flowfield.rs`), as a shallow embedding in Lean 4.

Modelling conventions:
* `IVec2` is modelled as `ℤ × ℤ`, `UVec2` as `ℕ × ℕ`.
* `Vec2` world positions are modelled at integer coordinates (`ℤ × ℤ`);
  `Vec2::as_uvec2` truncates each component toward zero and saturates negative
  values at zero, which on integer-valued inputs is exactly `Int.toNat`.
* The `u8` cost grid is modelled as `ℕ`-valued with an explicit overflow check:
  `cost + 1` / `cost + 2` beyond `255` is a Rust debug-mode arithmetic-overflow
  panic, modelled as the `Err.panicked` outcome.
* Rust panics (`expect`, out-of-bounds array indexing, arithmetic overflow) are
  modelled as `Option.none` or `Err.panicked` results.
* `HashSet<UVec2>` is a `Finset (ℕ × ℕ)`; `HashMap<UVec2, FlowField>` is an
  association list; the `[[u8; N]; N]` grids are functions `Cell → ℕ` that are
  only ever read or written at in-bounds indices (writes elsewhere are the
  modelled panics).
* The `while let Some(root) = queue.pop_front()` loop is translated with an
  explicit fuel parameter of `N * N + 1`; running out of fuel yields the
  distinguished `Err.fuelOut` (each in-bounds cell is pushed at most once, so
  this bound is never hit by the actual algorithm, and every claim that
  concerns a successful build is conditioned on an `ok` result).
-/

namespace TinySwords

/-- A signed grid coordinate (Rust `IVec2`). -/
abbrev Cell : Type := ℤ × ℤ

instance : Add Cell := ⟨fun a b => (a.1 + b.1, a.2 + b.2)⟩
instance : Sub Cell := ⟨fun a b => (a.1 - b.1, a.2 - b.2)⟩

/-- GRID_SIZE constant: the side length of the default flow field. -/
def GRID_SIZE : ℕ := 32

/-- CELL_SIZE constant: world units per grid cell. -/
def CELL_SIZE : ℕ := 64

/-- Cast a `UVec2` to an `IVec2` (`UVec2::as_ivec2`).  Values below `2^31`
cast losslessly; larger values would wrap to negatives in Rust, and in both
semantics every value `≥ N` fails the in-bounds test, which is the only
context in which the cast result is consumed. -/
def castCell (p : ℕ × ℕ) : Cell := ((p.1 : ℤ), (p.2 : ℤ))

/-- The impassable `HashSet<UVec2>` viewed as a set of signed cells. -/
def castSet (s : Finset (ℕ × ℕ)) : Finset Cell := s.image castCell

/-- Membership of the grid rectangle `IRect::new(0, 0, N-1, N-1)`
(`IRect::contains` is inclusive of both corners). -/
def inBounds (N : ℕ) (c : Cell) : Bool :=
  0 ≤ c.1 && c.1 ≤ (N : ℤ) - 1 && 0 ≤ c.2 && c.2 ≤ (N : ℤ) - 1

/-- The finite set of in-bounds cells. -/
def gridCells (N : ℕ) : Finset Cell :=
  Finset.Icc (0 : ℤ) ((N : ℤ) - 1) ×ˢ Finset.Icc (0 : ℤ) ((N : ℤ) - 1)

/-- Direction constant `UP`. -/
def UP : ℕ := 0
/-- Direction constant `UP_RIGHT`. -/
def UP_RIGHT : ℕ := 1
/-- Direction constant `RIGHT`. -/
def RIGHT : ℕ := 2
/-- Direction constant `DOWN_RIGHT`. -/
def DOWN_RIGHT : ℕ := 3
/-- Direction constant `DOWN`. -/
def DOWN : ℕ := 4
/-- Direction constant `DOWN_LEFT`. -/
def DOWN_LEFT : ℕ := 5
/-- Direction constant `LEFT`. -/
def LEFT : ℕ := 6
/-- Direction constant `UP_LEFT`. -/
def UP_LEFT : ℕ := 7
/-- Sentinel constant `TARGET`. -/
def TARGET : ℕ := 8
/-- Sentinel constant `IMPASSABLE`. -/
def IMPASSABLE : ℕ := 9

/-- The eight neighbour offsets, in the diagonals-then-orthogonals order used
by the direction scan. -/
def offsets8 : List Cell :=
  [(1, 1), (1, -1), (-1, -1), (-1, 1), (0, 1), (1, 0), (0, -1), (-1, 0)]

/-- `FlowField::u8_to_vector`: decode a direction code into a movement vector.
Codes `0`–`8` follow the compass table; `u8::MAX` and `IMPASSABLE` decode to
the zero vector; anything else is the `direction not recognised` error
(modelled as `none`). -/
def u8_to_vector (value : ℕ) : Option Cell :=
  if value = 0 then some (0, 1)
  else if value = 1 then some (1, 1)
  else if value = 2 then some (1, 0)
  else if value = 3 then some (1, -1)
  else if value = 4 then some (0, -1)
  else if value = 5 then some (-1, -1)
  else if value = 6 then some (-1, 0)
  else if value = 7 then some (-1, 1)
  else if value = 8 then some (0, 0)
  else if value = 255 then some (0, 0)
  else if value = IMPASSABLE then some (0, 0)
  else none

/-- `FlowField::vector_to_u8`: encode a movement vector as a direction code;
unrecognised vectors are the `direction not recognised` error. -/
def vector_to_u8 (vec : Cell) : Option ℕ :=
  if vec = (0, 1) then some 0
  else if vec = (1, 1) then some 1
  else if vec = (1, 0) then some 2
  else if vec = (1, -1) then some 3
  else if vec = (0, -1) then some 4
  else if vec = (-1, -1) then some 5
  else if vec = (-1, 0) then some 6
  else if vec = (-1, 1) then some 7
  else if vec = (0, 0) then some 8
  else none

/-- `FlowField::set_grid`: point update of a grid.  The Rust version panics
when the index is out of bounds; all call sites in the wavefront loop are
guarded by `grid_area.contains`, and the unguarded call sites (seeding and
final overwrite of impassable cells) are modelled by an explicit bounds check
producing `Err.panicked` in `build_flow_field`. -/
def setGrid (grid : Cell → ℕ) (pos : Cell) (value : ℕ) : Cell → ℕ :=
  fun c => if c = pos then value else grid c

/-- Outcomes of `build_flow_field`: the three `anyhow!` errors, the modelled
panics (out-of-bounds array write, `u8` arithmetic overflow), and exhaustion
of the explicit loop fuel (which the algorithm never hits). -/
inductive Err : Type where
  | targetBlocked : Err
  | outOfBounds : Err
  | noPath : Err
  | badDirection : Err
  | panicked : Err
  | fuelOut : Err
deriving DecidableEq, Repr

/-- The mutable state of the wavefront loop in `build_flow_field`. -/
structure BuildSt : Type where
  queue : List Cell
  seen : Finset Cell
  costs : Cell → ℕ
  field : Cell → ℕ

/-- One neighbour visit during the expansion phase:
`if seen.insert(pos) && grid_area.contains(pos) { queue.push_back(pos);
set_grid(costs, pos, cost + a) }`.  The insertion into `seen` happens even for
out-of-bounds neighbours; the cost write checks `u8` overflow. -/
def visit (N : ℕ) (cost a : ℕ) (st : BuildSt) (pos : Cell) : Except Err BuildSt :=
  if pos ∈ st.seen then .ok st
  else if inBounds N pos then
    if cost + a ≤ 255 then
      .ok { st with
        queue := st.queue ++ [pos]
        seen := insert pos st.seen
        costs := setGrid st.costs pos (cost + a) }
    else .error .panicked
  else .ok { st with seen := insert pos st.seen }

/-- An expansion `for` loop over a list of neighbour positions. -/
def expand (N : ℕ) (cost a : ℕ) : List Cell → BuildSt → Except Err BuildSt
  | [], st => .ok st
  | pos :: rest, st => do expand N cost a rest (← visit N cost a st pos)

/-- `IVec2::MAX`, the initial direction accumulator of the scan. -/
def ivecMax : Cell := (2147483647, 2147483647)

/-- The direction scan: fold over the neighbour list, keeping the first
neighbour (in scan order) whose cost strictly improves on the best seen so
far. -/
def scanDir (N : ℕ) (costs : Cell → ℕ) (root : Cell) :
    List Cell → Cell × ℕ → Cell × ℕ
  | [], acc => acc
  | pos :: rest, acc =>
      scanDir N costs root rest
        (if inBounds N pos && costs pos < acc.2 then (pos - root, costs pos) else acc)

/-- The four orthogonal neighbours `[up, right, down, left]` of a cell. -/
def orthogonalOf (root : Cell) : List Cell :=
  [root + (0, 1), root + (1, 0), root + (0, -1), root + (-1, 0)]

/-- The four diagonal neighbours `[up_right, down_right, down_left, up_left]`
of a cell. -/
def diagonalsOf (root : Cell) : List Cell :=
  [root + (1, 1), root + (1, -1), root + (-1, -1), root + (-1, 1)]

/-- The direction-selection tail of the loop body: scan the neighbours
(diagonals first) for the lowest-cost direction starting from the
`(IVec2::MAX, u8::MAX)` accumulator, fail with the `we couldn't find a
direction` error when the accumulator survives, otherwise encode the chosen
direction into the field (propagating the `vector_to_u8` error). -/
def directionStep (N : ℕ) (root : Cell) (st : BuildSt) : Except Err BuildSt :=
  let r := scanDir N st.costs root (diagonalsOf root ++ orthogonalOf root) (ivecMax, 255)
  if r.1 = ivecMax ∨ r.2 = 255 then .error .noPath
  else
    match vector_to_u8 r.1 with
    | some d => .ok { st with field := setGrid st.field root d }
    | none => .error .badDirection

/-- The body of the wavefront loop for one popped `root`: expand the four
orthogonal neighbours at `cost + 1`, the four diagonals at `cost + 2`, then
select and store the direction for `root`. -/
def processCell (N : ℕ) (root : Cell) (st : BuildSt) : Except Err BuildSt := do
  let cost := st.costs root
  let st ← expand N cost 1 (orthogonalOf root) st
  let st ← expand N cost 2 (diagonalsOf root) st
  directionStep N root st

/-- The fueled `while let Some(root) = queue.pop_front()` loop. -/
def bfsLoop (N : ℕ) : ℕ → BuildSt → Except Err BuildSt
  | 0, _ => .error .fuelOut
  | fuel + 1, st =>
      match st.queue with
      | [] => .ok st
      | root :: rest => do
          bfsLoop N fuel (← processCell N root { st with queue := rest })

/-- The pre-loop phase of `FlowField::build_flow_field`: the blocked-target
check, the bounds check, the seeding of impassable costs (which panics when
any impassable cell is out of bounds, since `set_grid` indexes the array
unchecked), and the wavefront loop itself. -/
def buildLoopState (N : ℕ) (target : ℕ × ℕ) (impassable : Finset (ℕ × ℕ)) :
    Except Err BuildSt :=
  if target ∈ impassable then .error .targetBlocked
  else
    let t : Cell := castCell target
    if ¬ inBounds N t then .error .outOfBounds
    else if ¬ (∀ b ∈ impassable, inBounds N (castCell b) = true) then .error .panicked
    else
      bfsLoop N (N * N + 1)
        { queue := [t]
          seen := insert t (castSet impassable)
          costs := fun c => if c ∈ castSet impassable then 255 else 0
          field := fun _ => 0 }

/-- `FlowField::build_flow_field`: run the wavefront, then force every
impassable cell to `u8::MAX` and the target cell to `IMPASSABLE`, in that
order, and return the finished direction field. -/
def build_flow_field (N : ℕ) (target : ℕ × ℕ) (impassable : Finset (ℕ × ℕ)) :
    Except Err (Cell → ℕ) :=
  (buildLoopState N target impassable).map fun st =>
    setGrid (fun c => if c ∈ castSet impassable then 255 else st.field c)
      (castCell target) IMPASSABLE

/-- Whether `build_flow_field` succeeds. -/
def buildOk (N : ℕ) (target : ℕ × ℕ) (impassable : Finset (ℕ × ℕ)) : Bool :=
  (build_flow_field N target impassable).toOption.isSome

/-- The direction field produced by a successful build (all-zero otherwise). -/
def buildField (N : ℕ) (target : ℕ × ℕ) (impassable : Finset (ℕ × ℕ)) : Cell → ℕ :=
  match build_flow_field N target impassable with
  | .ok f => f
  | .error _ => fun _ => 0

/-- The cost table computed by the wavefront pass of a successful build
(all-zero otherwise): orthogonal step `+1`, diagonal step `+2`, first visit
wins. -/
def buildCosts (N : ℕ) (target : ℕ × ℕ) (impassable : Finset (ℕ × ℕ)) : Cell → ℕ :=
  match buildLoopState N target impassable with
  | .ok st => st.costs
  | .error _ => fun _ => 0

/-- The error produced by a failed build, if any. -/
def buildErr (N : ℕ) (target : ℕ × ℕ) (impassable : Finset (ℕ × ℕ)) : Option Err :=
  match build_flow_field N target impassable with
  | .ok _ => none
  | .error e => some e

/-- `DefaultSizeFlowField::world_to_grid`: `world_pos.as_uvec2() /
UVec2::splat(CELL_SIZE)`.  On integer world coordinates the saturating
float-to-`u32` cast is `Int.toNat`. -/
def world_to_grid (world_pos : ℤ × ℤ) : ℕ × ℕ :=
  (world_pos.1.toNat / CELL_SIZE, world_pos.2.toNat / CELL_SIZE)

/-- `FlowField::<N>::get`: sample a field at a world position by indexing
`field[grid.x][grid.y]` — a panic (`none`) when the grid position falls
outside the `N × N` array — and decoding through `u8_to_vector`, whose error
is surfaced by `.expect` (also `none`). -/
def FlowField.get (N : ℕ) (fld : Cell → ℕ) (world_translation : ℤ × ℤ) : Option Cell :=
  let grid_pos := world_to_grid world_translation
  if grid_pos.1 < N ∧ grid_pos.2 < N then u8_to_vector (fld (castCell grid_pos))
  else none

/-- The `FlowFields` resource: the cache of built fields (a `HashMap` keyed by
target cell, modelled as an association list) and the impassable set. -/
structure FlowFields : Type where
  fields : List ((ℕ × ℕ) × (Cell → ℕ))
  impassable : Finset (ℕ × ℕ)

/-- Association-list lookup, modelling `HashMap::get`. -/
def mapLookup {α : Type} : List ((ℕ × ℕ) × α) → (ℕ × ℕ) → Option α
  | [], _ => none
  | (k, v) :: rest, key => if k = key then some v else mapLookup rest key

/-- `FlowFields::set_impassable`. -/
def set_impassable (ffs : FlowFields) (point : ℕ × ℕ) : FlowFields :=
  { ffs with impassable := insert point ffs.impassable }

/-- `FlowFields::set_passable`. -/
def set_passable (ffs : FlowFields) (point : ℕ × ℕ) : FlowFields :=
  { ffs with impassable := ffs.impassable.erase point }

/-- `FlowFields::is_walkable`: convert to a grid cell and test impassable-set
membership. -/
def is_walkable (ffs : FlowFields) (world_pos : ℤ × ℤ) : Bool :=
  ¬ world_to_grid world_pos ∈ ffs.impassable

/-- `FlowFields::get_or_generate`: serve the cached field when present,
otherwise build one (at the default size `GRID_SIZE`), store it and return it.
A build failure hits `.expect("Failed to build flowfield")`, i.e. panics
(`none`). -/
def get_or_generate (ffs : FlowFields) (target : ℕ × ℕ) :
    Option ((Cell → ℕ) × FlowFields) :=
  match mapLookup ffs.fields target with
  | some fld => some (fld, ffs)
  | none =>
      match build_flow_field GRID_SIZE target ffs.impassable with
      | .ok fld => some (fld, { ffs with fields := (target, fld) :: ffs.fields })
      | .error _ => none

/-- An actor steering value.  Real steering vectors are `f32` pairs; the only
values the updater ever writes are decoded integer field samples and
`normalize_or_zero` of an integer difference vector, so the field sample is
kept exactly and the normalized unit vector is kept symbolically by its
(nonzero) pre-normalization difference. -/
inductive Steering : Type where
  | vec (v : Cell) : Steering
  | normalized (d : ℤ × ℤ) : Steering
deriving DecidableEq, Repr

/-- `Vec2::normalize_or_zero` applied to the straight-line difference: zero on
the zero vector, the (symbolic) unit vector in the direction of `d`
otherwise. -/
def normalize_or_zero (d : ℤ × ℤ) : Steering :=
  if d = (0, 0) then .vec (0, 0) else .normalized d

/-- A `FlowFieldActor` component together with its `Transform` translation
(both world positions, at integer coordinates). -/
structure ActorState : Type where
  target : ℤ × ℤ
  steering : Steering
  pos : ℤ × ℤ
deriving DecidableEq, Repr

/-- `FlowFieldActor::new`. -/
def FlowFieldActor.new (target : ℤ × ℤ) (pos : ℤ × ℤ) : ActorState :=
  { target := target, steering := .vec (0, 0), pos := pos }

/-- The body of `update_flow_field_generation` for one actor: resolve the
target grid cell, get or generate its field (panicking on a builder failure),
sample the field at the actor's position, and write back either the sampled
vector or, when the sample is zero, the normalized straight-line fallback. -/
def updateActor (ffs : FlowFields) (a : ActorState) :
    Option (FlowFields × ActorState) :=
  let target_pos := world_to_grid a.target
  match get_or_generate ffs target_pos with
  | none => none
  | some (fld, ffs1) =>
      match FlowField.get GRID_SIZE fld a.pos with
      | none => none
      | some steering =>
          if steering = (0, 0) then
            some (ffs1, { a with steering := normalize_or_zero (a.target - a.pos) })
          else some (ffs1, { a with steering := .vec steering })

/-- `update_flow_field_generation`: one run of the Actor Steering Updater over
the live actors, threading the cache; `none` models a panic during the run. -/
def update_flow_field_generation (ffs : FlowFields) :
    List ActorState → Option (FlowFields × List ActorState)
  | [] => some (ffs, [])
  | a :: rest =>
      match updateActor ffs a with
      | none => none
      | some (ffs1, a1) =>
          match update_flow_field_generation ffs1 rest with
          | none => none
          | some (ffs2, rest1) => some (ffs2, a1 :: rest1)

/-- `update_clean_flow_field_cache`: compute the set of target grid cells in
use by live actors and remove every cached field whose key is not among
them. -/
def update_clean_flow_field_cache (actors : List ActorState) (ffs : FlowFields) :
    FlowFields :=
  let in_use := actors.map fun a => world_to_grid a.target
  { ffs with fields := ffs.fields.filter fun kv => kv.1 ∈ in_use }

/-- Modelled from the spec (claim-side definition, §4.2/§8): one growth step
of the set of cells reachable from the target through in-bounds,
non-impassable cells under king-move adjacency. -/
def growReach (N : ℕ) (imp : Finset Cell) (R : Finset Cell) : Finset Cell :=
  R ∪ (gridCells N).filter fun c => c ∉ imp ∧ ∃ off ∈ offsets8, c - off ∈ R

/-- Modelled from the spec (claim-side definition): the cells reachable from
the target cell through non-impassable in-bounds cells, by `N²` closure
steps. -/
def reachableSet (N : ℕ) (impassable : Finset (ℕ × ℕ)) (target : ℕ × ℕ) :
    Finset Cell :=
  (growReach N (castSet impassable))^[N * N] {castCell target}

/-- One step of direction-chain following: move by the decoded direction
stored at the current cell. -/
def stepCell (fld : Cell → ℕ) (c : Cell) : Cell :=
  c + ((u8_to_vector (fld c)).getD (0, 0))

/-- Whether following the stored directions from `c` reaches `t` within `k`
steps. -/
def chainReaches (fld : Cell → ℕ) (t : Cell) : ℕ → Cell → Bool
  | 0, c => c = t
  | k + 1, c => c = t || chainReaches fld t k (stepCell fld c)

/-- The list of cells visited while following the stored directions from `c`
for at most `k` steps (stopping at `t`). -/
def chainList (fld : Cell → ℕ) (t : Cell) : ℕ → Cell → List Cell
  | 0, c => [c]
  | k + 1, c => if c = t then [c] else c :: chainList fld t k (stepCell fld c)

/-- A wavefront-assigned cell has some in-bounds neighbour of strictly lower
cost that is already part of the search frontier (its discovery parent). -/
def hasParent (N : ℕ) (st : BuildSt) (c : Cell) : Prop :=
  ∃ off ∈ offsets8, inBounds N (c + off) = true ∧ (c + off) ∈ st.seen ∧
    st.costs (c + off) < st.costs c

/-- A processed cell stores a decodable direction whose decoded offset points
to an in-bounds, non-impassable, already-seen neighbour of strictly lower
cost. -/
def goodDir (N : ℕ) (P : Finset Cell) (st : BuildSt) (c : Cell) : Prop :=
  ∃ off ∈ offsets8, u8_to_vector (st.field c) = some off ∧
    inBounds N (c + off) = true ∧ (c + off) ∉ P ∧ (c + off) ∈ st.seen ∧
    st.costs (c + off) < st.costs c

/-- The loop invariant of the wavefront pass of `build_flow_field`, for the
target cell `t` and the (signed image of the) impassable set `P`. -/
structure Inv (N : ℕ) (P : Finset Cell) (t : Cell) (st : BuildSt) : Prop where
  t_seen : t ∈ st.seen
  t_cost : st.costs t = 0
  p_seen : ∀ p ∈ P, p ∈ st.seen
  p_cost : ∀ p ∈ P, st.costs p = 255
  q_seen : ∀ c ∈ st.queue, c ∈ st.seen
  q_bounds : ∀ c ∈ st.queue, inBounds N c = true
  q_pass : ∀ c ∈ st.queue, c ∉ P
  q_par : ∀ c ∈ st.queue, c ≠ t → hasParent N st c
  cost_le : ∀ c, st.costs c ≤ 255
  f_le : ∀ c, st.field c ≤ 8
  done_dir : ∀ c ∈ st.seen, inBounds N c = true → c ∉ P → c ≠ t →
    c ∉ st.queue → goodDir N P st c
  done_nbrs : ∀ c ∈ st.seen, inBounds N c = true → c ∉ P → c ∉ st.queue →
    ∀ off ∈ offsets8, c + off ∈ st.seen

/-- Summary of the effect of one expansion phase (`expand` over the list `L`
of candidate neighbours at incremental cost `a`): the seen set grows by the
elements of `L`, frozen costs stay put, newly queued cells come from `L`,
are fresh, in bounds and cost-assigned, and every newly seen cell is either
newly queued or out of bounds. -/
structure ExpandOut (N cost a : ℕ) (L : List Cell) (st st' : BuildSt) : Prop where
  seen_mono : st.seen ⊆ st'.seen
  seen_list : ∀ pos ∈ L, pos ∈ st'.seen
  costs_frozen : ∀ c ∈ st.seen, st'.costs c = st.costs c
  costs_cases : ∀ c, st'.costs c = st.costs c ∨
    (st'.costs c = cost + a ∧ cost + a ≤ 255)
  field_eq : st'.field = st.field
  queue_new : ∃ new, st'.queue = st.queue ++ new ∧
    (∀ c ∈ new, c ∈ L ∧ c ∉ st.seen ∧ c ∈ st'.seen ∧ inBounds N c = true ∧
      st'.costs c = cost + a ∧ cost + a ≤ 255) ∧
    (∀ c ∈ st'.seen, c ∉ st.seen → c ∈ new ∨ inBounds N c = false)

theorem Cell.add_def (a b : Cell) : a + b = (a.1 + b.1, a.2 + b.2) := rfl

theorem Cell.sub_def (a b : Cell) : a - b = (a.1 - b.1, a.2 - b.2) := rfl

theorem Cell.add_sub_cancel_left (r o : Cell) : (r + o) - r = o := by
  cases r with
  | mk x y =>
    cases o with
    | mk u v => simp [Cell.add_def, Cell.sub_def]

theorem Cell.add_neg_cancel (c o : Cell) : (c + o) + ((-o.1, -o.2) : Cell) = c := by
  cases c with
  | mk x y =>
    cases o with
    | mk u v =>
      simp only [Cell.add_def, Prod.mk.injEq]
      omega

theorem Cell.sub_add_cancel (a b : Cell) : (a - b) + b = a := by
  cases a with
  | mk x y =>
    cases b with
    | mk u v =>
      simp only [Cell.sub_def, Cell.add_def, Prod.mk.injEq]
      omega

theorem Cell.sub_eq_iff {a b c : Cell} : a - b = c ↔ a = b + c := by
  cases a with
  | mk x y =>
    cases b with
    | mk u v =>
      cases c with
      | mk s w =>
        simp only [Cell.sub_def, Cell.add_def, Prod.mk.injEq]
        omega

theorem mem_gridCells {N : ℕ} {c : Cell} :
    c ∈ gridCells N ↔ inBounds N c = true := by
  cases c with
  | mk x y =>
    simp [gridCells, inBounds, Finset.mem_product, Finset.mem_Icc,
      Bool.and_eq_true, decide_eq_true_eq, and_assoc]

theorem card_gridCells (N : ℕ) : (gridCells N).card = N * N := by
  have h : (Finset.Icc (0 : ℤ) ((N : ℤ) - 1)).card = N := by
    rw [Int.card_Icc]
    simp
  simp [gridCells, Finset.card_product, h]

theorem castCell_injective : Function.Injective castCell := by
  intro a b h
  cases a with
  | mk x y =>
    cases b with
    | mk u v =>
      simp only [castCell, Prod.mk.injEq] at h ⊢
      omega

theorem mem_castSet_iff {s : Finset (ℕ × ℕ)} {p : ℕ × ℕ} :
    castCell p ∈ castSet s ↔ p ∈ s := by
  unfold castSet
  constructor
  · intro h
    obtain ⟨q, hq, hqe⟩ := Finset.mem_image.mp h
    exact castCell_injective hqe ▸ hq
  · intro h
    exact Finset.mem_image_of_mem _ h

theorem pos_of_inBounds {N : ℕ} {c : Cell} (h : inBounds N c = true) : 1 ≤ N := by
  by_contra hN
  have hz : N = 0 := by omega
  subst hz
  simp only [inBounds, Bool.and_eq_true, decide_eq_true_eq] at h
  omega

theorem scanList_eq (root : Cell) :
    diagonalsOf root ++ orthogonalOf root = offsets8.map (fun off => root + off) := rfl

theorem offsets_encode :
    ∀ off ∈ offsets8, ∃ k, vector_to_u8 off = some k ∧ k ≤ 8 ∧
      u8_to_vector k = some off := by
  intro off h
  fin_cases h <;> exact ⟨_, rfl, by norm_num, rfl⟩

theorem offsets_neg_mem :
    ∀ off ∈ offsets8, ((-off.1, -off.2) : Cell) ∈ offsets8 := by decide

theorem u8_to_vector_isSome {v : ℕ} (h : v ≤ 8 ∨ v = 9 ∨ v = 255) :
    (u8_to_vector v).isSome = true := by
  rcases h with h | h | h
  · interval_cases v <;> rfl
  · subst h; rfl
  · subst h; rfl

/-- C9: for each of the 8 real direction codes, decoding (`u8_to_vector`) and
re-encoding (`vector_to_u8`) yields the code back; the 8 decoded vectors are
pairwise distinct and nonzero; the sentinels `TARGET` and `IMPASSABLE` decode
to the zero vector. -/
theorem c9_direction_roundtrip :
    ((List.range 8).all fun d => ((u8_to_vector d).bind vector_to_u8) == some d) = true ∧
    ((List.range 8).map fun d => (u8_to_vector d).getD (0, 0)).Nodup ∧
    ((List.range 8).all fun d => !((u8_to_vector d).getD (0, 0) == ((0 : ℤ), (0 : ℤ)))) = true ∧
    u8_to_vector TARGET = some (0, 0) ∧ u8_to_vector IMPASSABLE = some (0, 0) := by
  decide

/-- C2 (code bug): on the successful 4×4 build targeting `(2, 2)` with
impassable set `{(0, 0)}`, the final pass writes the `IMPASSABLE` code (9) at
the target cell and `u8::MAX` (255) at the impassable cell — not `TARGET` (8)
and `IMPASSABLE` (9) as the (unused) constants and the spec intend. -/
theorem c2_sentinel_codes_swapped :
    buildOk 4 (2, 2) {(0, 0)} = true ∧
    buildField 4 (2, 2) {(0, 0)} (castCell (2, 2)) = IMPASSABLE ∧
    buildField 4 (2, 2) {(0, 0)} (castCell (0, 0)) = 255 ∧
    IMPASSABLE ≠ TARGET ∧ (255 : ℕ) ≠ IMPASSABLE := by
  decide

/-- C4 (counterexample): for a target that is both outside the grid and a
member of the passability set, `build_flow_field` returns `TargetBlocked`,
not `OutOfBounds` as the claim requires for every out-of-bounds target. -/
theorem c4_counterexample :
    inBounds 4 (castCell (5, 5)) = false ∧
    buildErr 4 (5, 5) {(5, 5)} = some .targetBlocked ∧
    Err.targetBlocked ≠ Err.outOfBounds := by
  decide

/-- C4 (amended): the blocked-target check runs first, so membership of the
passability set yields `TargetBlocked` even for out-of-bounds targets; an
out-of-bounds target that is not in the passability set yields `OutOfBounds`;
and `set_impassable(t)` followed by a build targeting `t` yields
`TargetBlocked`. -/
theorem c4_amended_error_order (N : ℕ) (target : ℕ × ℕ) (imp : Finset (ℕ × ℕ))
    (ffs : FlowFields) :
    (target ∈ imp → build_flow_field N target imp = .error .targetBlocked) ∧
    (target ∉ imp → inBounds N (castCell target) = false →
      build_flow_field N target imp = .error .outOfBounds) ∧
    build_flow_field GRID_SIZE target (set_impassable ffs target).impassable =
      .error .targetBlocked := by
  refine ⟨?_, ?_, ?_⟩
  · intro h
    simp [build_flow_field, buildLoopState, h, Except.map]
  · intro h hb
    simp [build_flow_field, buildLoopState, h, hb, Except.map]
  · have h : target ∈ (set_impassable ffs target).impassable :=
      Finset.mem_insert_self _ _
    simp [build_flow_field, buildLoopState, h, Except.map]

/-- C4 (witness): the amended statement at concrete inputs — a blocked
in-bounds target, an out-of-bounds unblocked target, and a freshly
impassable-marked target. -/
theorem c4_witness :
    build_flow_field 4 (1, 1) {(1, 1)} = .error .targetBlocked ∧
    build_flow_field 4 (9, 1) ∅ = .error .outOfBounds ∧
    build_flow_field GRID_SIZE (3, 3) (set_impassable ⟨[], ∅⟩ (3, 3)).impassable =
      .error .targetBlocked :=
  ⟨(c4_amended_error_order 4 (1, 1) {(1, 1)} ⟨[], ∅⟩).1 (by decide),
   (c4_amended_error_order 4 (9, 1) ∅ ⟨[], ∅⟩).2.1 (by decide) (by decide),
   (c4_amended_error_order 32 (3, 3) ∅ ⟨[], ∅⟩).2.2⟩

/-- C10: if the passability set contains any out-of-bounds cell, a build with
an in-bounds, unblocked target panics (modelled `Err.panicked`) on the
unchecked array write that seeds impassable costs, instead of returning an
error value. -/
theorem c10_oob_passability_panics (N : ℕ) (target : ℕ × ℕ) (imp : Finset (ℕ × ℕ))
    (ht : inBounds N (castCell target) = true) (htp : target ∉ imp)
    (hb : ∃ b ∈ imp, inBounds N (castCell b) = false) :
    build_flow_field N target imp = .error .panicked := by
  have h1 : ¬ ∀ b ∈ imp, inBounds N (castCell b) = true := by
    obtain ⟨b, hbm, hbf⟩ := hb
    intro hall
    exact absurd (hall b hbm) (by simp [hbf])
  unfold build_flow_field buildLoopState
  rw [if_neg htp, if_neg (show ¬ ¬ inBounds N (castCell target) = true by simp [ht]),
    if_pos h1]
  rfl

/-- C10 (witness): a concrete in-bounds unblocked target with one
out-of-bounds impassable cell panics. -/
theorem c10_witness :
    build_flow_field 4 (1, 1) {(9, 9)} = .error .panicked :=
  c10_oob_passability_panics 4 (1, 1) {(9, 9)} (by decide) (by decide)
    ⟨(9, 9), by decide, by decide⟩

/-- C7: a `get_or_generate` call that returns leaves the cache holding the
returned field under the requested key, and an immediate second call for the
same target serves exactly that entry, with the cache state unchanged (no
second build). -/
theorem c7_cache_hit_stable (ffs : FlowFields) (t : ℕ × ℕ) (f : Cell → ℕ)
    (ffs1 : FlowFields) (h : get_or_generate ffs t = some (f, ffs1)) :
    mapLookup ffs1.fields t = some f ∧ get_or_generate ffs1 t = some (f, ffs1) := by
  unfold get_or_generate at h
  cases hl : mapLookup ffs.fields t with
  | some g =>
      rw [hl] at h
      simp only [Option.some.injEq, Prod.mk.injEq] at h
      obtain ⟨rfl, rfl⟩ := h
      refine ⟨hl, ?_⟩
      unfold get_or_generate
      rw [hl]
  | none =>
      rw [hl] at h
      cases hbuild : build_flow_field GRID_SIZE t ffs.impassable with
      | error e => rw [hbuild] at h; exact absurd h (by simp)
      | ok fld =>
          rw [hbuild] at h
          simp only [Option.some.injEq, Prod.mk.injEq] at h
          obtain ⟨rfl, rfl⟩ := h
          constructor
          · simp [mapLookup]
          · unfold get_or_generate
            simp [mapLookup]

/-- C7 (witness): on a cache already holding an entry for `(2, 2)`, the
theorem instantiates with the call returning that entry unchanged. -/
theorem c7_witness :
    mapLookup (FlowFields.mk [((2, 2), fun _ => 0)] ∅).fields (2, 2) =
      some (fun _ => (0 : ℕ)) ∧
    get_or_generate ⟨[((2, 2), fun _ => 0)], ∅⟩ (2, 2) =
      some (fun _ => 0, ⟨[((2, 2), fun _ => 0)], ∅⟩) :=
  c7_cache_hit_stable ⟨[((2, 2), fun _ => 0)], ∅⟩ (2, 2) (fun _ => 0)
    ⟨[((2, 2), fun _ => 0)], ∅⟩ rfl

theorem mapLookup_filter {α : Type} (p : (ℕ × ℕ) → Bool) (l : List ((ℕ × ℕ) × α))
    (k : ℕ × ℕ) :
    mapLookup (l.filter fun kv => p kv.1) k = if p k then mapLookup l k else none := by
  induction l with
  | nil => simp [mapLookup]
  | cons kv rest ih =>
      obtain ⟨q, v⟩ := kv
      by_cases hq : q = k
      · subst hq
        by_cases hp : p q
        · simp [List.filter_cons, hp, mapLookup]
        · simp [List.filter_cons, hp, mapLookup, ih]
      · by_cases hp : p q
        · simp [List.filter_cons, hp, mapLookup, hq, ih]
        · simp [List.filter_cons, hp, mapLookup, hq, ih]

theorem filter_idem {α : Type} (p : α → Bool) (l : List α) :
    (l.filter p).filter p = l.filter p := by
  induction l with
  | nil => rfl
  | cons a rest ih =>
      by_cases hp : p a
      · simp [List.filter_cons, hp, ih]
      · simp [List.filter_cons, hp, ih]

/-- C8: the Janitor keeps exactly the cache entries whose key is some live
actor's target grid cell (lookup of every other key becomes `none`, lookup of
every referenced key is unchanged); with no live actors the cache ends empty;
and running the Janitor twice equals running it once. -/
theorem c8_janitor_exact :
    (∀ (actors : List ActorState) (ffs : FlowFields) (k : ℕ × ℕ),
      mapLookup (update_clean_flow_field_cache actors ffs).fields k =
        if k ∈ actors.map (fun a => world_to_grid a.target)
        then mapLookup ffs.fields k else none) ∧
    (∀ ffs : FlowFields, (update_clean_flow_field_cache [] ffs).fields = []) ∧
    (∀ (actors : List ActorState) (ffs : FlowFields),
      update_clean_flow_field_cache actors (update_clean_flow_field_cache actors ffs) =
        update_clean_flow_field_cache actors ffs) := by
  refine ⟨?_, ?_, ?_⟩
  · intro actors ffs k
    rw [show (update_clean_flow_field_cache actors ffs).fields =
        ffs.fields.filter
          (fun kv => decide (kv.1 ∈ actors.map fun a => world_to_grid a.target))
      from rfl,
      mapLookup_filter (fun x => decide (x ∈ actors.map fun a => world_to_grid a.target))]
    simp
  · intro ffs
    simp [update_clean_flow_field_cache]
  · intro actors ffs
    simp [update_clean_flow_field_cache, filter_idem]

/-- C3 (counterexample): an actor whose target world position maps to an
out-of-bounds target cell makes the Builder fail, and the run of the Actor
Steering Updater panics on the `expect` inside `get_or_generate` (modelled
`none`) instead of assigning the straight-line fallback. -/
theorem c3_counterexample :
    buildErr GRID_SIZE (world_to_grid (250000, 250000)) ∅ = some .outOfBounds ∧
    update_flow_field_generation ⟨[], ∅⟩
      [FlowFieldActor.new (250000, 250000) (0, 0)] = none := by
  exact ⟨by decide, rfl⟩

/-- C3 (amended): one run of the Actor Steering Updater panics exactly when
`get_or_generate` panics (Builder failure on a cache miss) or sampling the
field panics; when the cache/Builder yields a field and the sample succeeds,
the actor's steering is assigned — the sampled vector, or the normalized
straight-line fallback when the sample is the zero vector (which is itself
zero when the actor sits exactly on its target). -/
theorem c3_amended_updater (ffs : FlowFields) (a : ActorState) :
    (get_or_generate ffs (world_to_grid a.target) = none →
      update_flow_field_generation ffs [a] = none) ∧
    (∀ (fld : Cell → ℕ) (ffs1 : FlowFields),
      get_or_generate ffs (world_to_grid a.target) = some (fld, ffs1) →
        (FlowField.get GRID_SIZE fld a.pos = none →
          update_flow_field_generation ffs [a] = none) ∧
        (∀ v, FlowField.get GRID_SIZE fld a.pos = some v →
          update_flow_field_generation ffs [a] = some (ffs1,
            [{ a with steering :=
                if v = (0, 0) then normalize_or_zero (a.target - a.pos)
                else .vec v }]))) := by
  refine ⟨?_, ?_⟩
  · intro h
    simp [update_flow_field_generation, updateActor, h]
  · intro fld ffs1 h
    refine ⟨?_, ?_⟩
    · intro hg
      simp [update_flow_field_generation, updateActor, h, hg]
    · intro v hv
      by_cases hz : v = (0, 0)
      · subst hz
        simp [update_flow_field_generation, updateActor, h, hv]
      · simp only [update_flow_field_generation, updateActor, h, hv]
        rw [if_neg hz, if_neg hz]

/-- C3 (witness): a cache-hit scenario — the cached field for target cell
`(3, 3)` holds `DOWN` everywhere, the actor at `(64, 64)` targeting
`(192, 192)` gets steering `(0, -1)` and the run returns. -/
theorem c3_witness :
    update_flow_field_generation ⟨[((3, 3), fun _ => DOWN)], ∅⟩
        [{ target := (192, 192), steering := .vec (0, 0), pos := (64, 64) }] =
      some (⟨[((3, 3), fun _ => DOWN)], ∅⟩,
        [{ target := (192, 192), steering := .vec (0, -1), pos := (64, 64) }]) := by
  have h := ((c3_amended_updater ⟨[((3, 3), fun _ => DOWN)], ∅⟩
    { target := (192, 192), steering := .vec (0, 0), pos := (64, 64) }).2
    (fun _ => DOWN) ⟨[((3, 3), fun _ => DOWN)], ∅⟩ rfl).2 (0, -1) rfl
  simpa using h

/-- C5 (counterexample): on the successful 4×4 build targeting `(2, 2)` with
the corner cell `(0, 0)` sealed off by impassable cells, `(0, 0)` is neither
the target nor impassable, yet it holds the initial code `UP`, whose decoded
offset points to the impassable neighbour `(0, 1)` of wavefront cost 255 —
not a neighbour of strictly lower cost than `(0, 0)`'s own cost 0. -/
theorem c5_counterexample :
    buildOk 4 (2, 2) {(0, 1), (1, 1), (1, 0)} = true ∧
    inBounds 4 ((0, 0) : Cell) = true ∧
    ((0, 0) : Cell) ≠ castCell (2, 2) ∧
    ((0, 0) : Cell) ∉ castSet {(0, 1), (1, 1), (1, 0)} ∧
    buildField 4 (2, 2) {(0, 1), (1, 1), (1, 0)} (0, 0) = UP ∧
    u8_to_vector UP = some (0, 1) ∧
    inBounds 4 (((0, 0) : Cell) + (0, 1)) = true ∧
    ¬ (buildCosts 4 (2, 2) {(0, 1), (1, 1), (1, 0)} (((0, 0) : Cell) + (0, 1)) <
        buildCosts 4 (2, 2) {(0, 1), (1, 1), (1, 0)} (0, 0)) := by
  decide

/-- C6 (counterexample): sampling a successfully built 4×4 field at the world
position `(3000, 3000)` — whose grid cell `(46, 46)` lies outside the field —
panics on the out-of-bounds array index (modelled `none`), so `FlowField::get`
is not total over world positions. -/
theorem c6_counterexample :
    buildOk 4 (2, 2) ∅ = true ∧
    FlowField.get 4 (buildField 4 (2, 2) ∅) (3000, 3000) = none := by
  decide

theorem expandOut_nil {N cost a : ℕ} (st : BuildSt) : ExpandOut N cost a [] st st :=
  { seen_mono := Finset.Subset.refl _
    seen_list := by simp
    costs_frozen := fun _ _ => rfl
    costs_cases := fun _ => Or.inl rfl
    field_eq := rfl
    queue_new := ⟨[], by simp, by simp, fun c hc hc' => absurd hc hc'⟩ }

theorem visit_spec {N cost a : ℕ} {st st' : BuildSt} {pos : Cell}
    (h : visit N cost a st pos = .ok st') : ExpandOut N cost a [pos] st st' := by
  unfold visit at h
  by_cases hs : pos ∈ st.seen
  · rw [if_pos hs] at h
    injection h with h
    subst h
    refine
      { seen_mono := Finset.Subset.refl _
        seen_list := ?_
        costs_frozen := fun _ _ => rfl
        costs_cases := fun _ => Or.inl rfl
        field_eq := rfl
        queue_new := ⟨[], by simp, by simp, fun c hc hc' => absurd hc hc'⟩ }
    intro p hp
    rw [List.mem_singleton] at hp
    subst hp
    exact hs
  · rw [if_neg hs] at h
    by_cases hb : inBounds N pos
    · rw [if_pos hb] at h
      by_cases h255 : cost + a ≤ 255
      · rw [if_pos h255] at h
        injection h with h
        subst h
        refine
          { seen_mono := Finset.subset_insert _ _
            seen_list := ?_
            costs_frozen := ?_
            costs_cases := ?_
            field_eq := rfl
            queue_new := ⟨[pos], rfl, ?_, ?_⟩ }
        · intro p hp
          rw [List.mem_singleton] at hp
          subst hp
          exact Finset.mem_insert_self _ _
        · intro c hc
          have hne : c ≠ pos := fun he => hs (he ▸ hc)
          simp [setGrid, hne]
        · intro c
          by_cases he : c = pos
          · subst he
            exact Or.inr ⟨by simp [setGrid], h255⟩
          · exact Or.inl (by simp [setGrid, he])
        · intro c hc
          rw [List.mem_singleton] at hc
          subst hc
          exact ⟨List.mem_singleton_self _, hs, Finset.mem_insert_self _ _, hb,
            by simp [setGrid], h255⟩
        · intro c hc hc'
          rcases Finset.mem_insert.mp hc with he | he
          · exact Or.inl (by simp [he])
          · exact absurd he hc'
      · rw [if_neg h255] at h
        exact absurd h (by simp)
    · rw [if_neg hb] at h
      injection h with h
      subst h
      refine
        { seen_mono := Finset.subset_insert _ _
          seen_list := ?_
          costs_frozen := fun _ _ => rfl
          costs_cases := fun _ => Or.inl rfl
          field_eq := rfl
          queue_new := ⟨[], by simp, by simp, ?_⟩ }
      · intro p hp
        rw [List.mem_singleton] at hp
        subst hp
        exact Finset.mem_insert_self _ _
      · intro c hc hc'
        rcases Finset.mem_insert.mp hc with he | he
        · subst he
          exact Or.inr (by simpa using hb)
        · exact absurd he hc'

theorem ExpandOut.comp {N cost a : ℕ} {L1 L2 : List Cell} {st st1 st2 : BuildSt}
    (e1 : ExpandOut N cost a L1 st st1) (e2 : ExpandOut N cost a L2 st1 st2) :
    ExpandOut N cost a (L1 ++ L2) st st2 := by
  obtain ⟨new1, hq1, hn1, hc1⟩ := e1.queue_new
  obtain ⟨new2, hq2, hn2, hc2⟩ := e2.queue_new
  refine
    { seen_mono := e1.seen_mono.trans e2.seen_mono
      seen_list := ?_
      costs_frozen := ?_
      costs_cases := ?_
      field_eq := e2.field_eq.trans e1.field_eq
      queue_new := ⟨new1 ++ new2, ?_, ?_, ?_⟩ }
  · intro p hp
    rcases List.mem_append.mp hp with h | h
    · exact e2.seen_mono (e1.seen_list p h)
    · exact e2.seen_list p h
  · intro c hc
    rw [e2.costs_frozen c (e1.seen_mono hc), e1.costs_frozen c hc]
  · intro c
    rcases e2.costs_cases c with h | h
    · rw [h]
      exact e1.costs_cases c
    · exact Or.inr h
  · rw [hq2, hq1, List.append_assoc]
  · intro c hc
    rcases List.mem_append.mp hc with h | h
    · obtain ⟨hL, hseen, hst1, hbnd, hcost, h255⟩ := hn1 c h
      exact ⟨List.mem_append_left _ hL, hseen, e2.seen_mono hst1, hbnd,
        by rw [e2.costs_frozen c hst1, hcost], h255⟩
    · obtain ⟨hL, hseen, hst2, hbnd, hcost, h255⟩ := hn2 c h
      exact ⟨List.mem_append_right _ hL, fun hc' => hseen (e1.seen_mono hc'), hst2,
        hbnd, hcost, h255⟩
  · intro c hc hc'
    by_cases h1 : c ∈ st1.seen
    · rcases hc1 c h1 hc' with h | h
      · exact Or.inl (List.mem_append_left _ h)
      · exact Or.inr h
    · rcases hc2 c hc h1 with h | h
      · exact Or.inl (List.mem_append_right _ h)
      · exact Or.inr h

theorem expand_spec {N cost a : ℕ} : ∀ {L : List Cell} {st st' : BuildSt},
    expand N cost a L st = .ok st' → ExpandOut N cost a L st st'
  | [], st, st', h => by
      unfold expand at h
      injection h with h
      subst h
      exact expandOut_nil st
  | pos :: rest, st, st', h => by
      unfold expand at h
      cases hv : visit N cost a st pos with
      | error e =>
          rw [hv] at h
          exact Except.noConfusion (show Except.error e = Except.ok st' from h)
      | ok st1 =>
          rw [hv] at h
          have h2 : expand N cost a rest st1 = .ok st' := h
          exact (visit_spec hv).comp (expand_spec h2)

theorem scanDir_spec (N : ℕ) (costs : Cell → ℕ) (root : Cell) :
    ∀ (L : List Cell) (acc : Cell × ℕ),
      (scanDir N costs root L acc).2 ≤ acc.2 ∧
      (∀ pos ∈ L, inBounds N pos = true →
        (scanDir N costs root L acc).2 ≤ costs pos) ∧
      (scanDir N costs root L acc = acc ∨
        ∃ pos ∈ L, inBounds N pos = true ∧
          (scanDir N costs root L acc).1 = pos - root ∧
          (scanDir N costs root L acc).2 = costs pos)
  | [], acc => by
      refine ⟨le_refl _, ?_, Or.inl rfl⟩
      intro pos hp
      exact absurd hp (List.not_mem_nil pos)
  | pos :: rest, acc => by
      have hstep : scanDir N costs root (pos :: rest) acc =
          scanDir N costs root rest
            (if inBounds N pos && costs pos < acc.2
             then (pos - root, costs pos) else acc) := rfl
      obtain ⟨ih1, ih2, ih3⟩ := scanDir_spec N costs root rest
        (if inBounds N pos && costs pos < acc.2 then (pos - root, costs pos) else acc)
      by_cases hc : (inBounds N pos && costs pos < acc.2 : Bool)
      · rw [if_pos hc] at ih1 ih2 ih3
        rw [hstep, if_pos hc]
        have hcb : inBounds N pos = true ∧ costs pos < acc.2 := by
          simpa [Bool.and_eq_true] using hc
        refine ⟨le_trans ih1 (le_of_lt hcb.2), ?_, ?_⟩
        · intro p hp hbp
          rcases List.mem_cons.mp hp with he | he
          · subst he
            exact ih1
          · exact ih2 p he hbp
        · rcases ih3 with h | ⟨p, hp, hbp, h1, h2⟩
          · rw [h]
            exact Or.inr ⟨pos, List.mem_cons_self _ _, hcb.1, rfl, rfl⟩
          · exact Or.inr ⟨p, List.mem_cons_of_mem _ hp, hbp, h1, h2⟩
      · rw [if_neg hc] at ih1 ih2 ih3
        rw [hstep, if_neg hc]
        refine ⟨ih1, ?_, ?_⟩
        · intro p hp hbp
          rcases List.mem_cons.mp hp with he | he
          · subst he
            have : ¬ costs p < acc.2 := by
              intro hlt
              exact hc (by simp [hbp, hlt])
            exact le_trans ih1 (le_of_not_lt this)
          · exact ih2 p he hbp
        · rcases ih3 with h | ⟨p, hp, hbp, h1, h2⟩
          · exact Or.inl h
          · exact Or.inr ⟨p, List.mem_cons_of_mem _ hp, hbp, h1, h2⟩

theorem bind_ok_elim {α β : Type} {e : Except Err α} {f : α → Except Err β} {b : β}
    (h : (e >>= f) = .ok b) : ∃ a, e = .ok a ∧ f a = .ok b := by
  cases e with
  | error x => exact Except.noConfusion (show Except.error x = Except.ok b from h)
  | ok a => exact ⟨a, rfl, h⟩

theorem mem_orth_offsets {c root : Cell} (h : c ∈ orthogonalOf root) :
    ∃ o ∈ offsets8, c = root + o := by
  simp only [orthogonalOf, List.mem_cons, List.not_mem_nil, or_false] at h
  rcases h with h | h | h | h
  · exact ⟨(0, 1), by decide, h⟩
  · exact ⟨(1, 0), by decide, h⟩
  · exact ⟨(0, -1), by decide, h⟩
  · exact ⟨(-1, 0), by decide, h⟩

theorem mem_diag_offsets {c root : Cell} (h : c ∈ diagonalsOf root) :
    ∃ o ∈ offsets8, c = root + o := by
  simp only [diagonalsOf, List.mem_cons, List.not_mem_nil, or_false] at h
  rcases h with h | h | h | h
  · exact ⟨(1, 1), by decide, h⟩
  · exact ⟨(1, -1), by decide, h⟩
  · exact ⟨(-1, -1), by decide, h⟩
  · exact ⟨(-1, 1), by decide, h⟩

theorem nbr_mem_scanList (root : Cell) {off : Cell} (h : off ∈ offsets8) :
    root + off ∈ diagonalsOf root ++ orthogonalOf root := by
  rw [scanList_eq]
  exact List.mem_map_of_mem _ h

theorem directionStep_ok {N : ℕ} {root : Cell} {st st' : BuildSt}
    (h : directionStep N root st = .ok st') :
    ∃ off d, off ∈ offsets8 ∧ inBounds N (root + off) = true ∧
      st.costs (root + off) ≠ 255 ∧
      (∀ p ∈ offsets8, inBounds N (root + p) = true →
        st.costs (root + off) ≤ st.costs (root + p)) ∧
      vector_to_u8 off = some d ∧ d ≤ 8 ∧ u8_to_vector d = some off ∧
      st' = { st with field := setGrid st.field root d } := by
  simp only [directionStep] at h
  obtain ⟨s1, s2, s3⟩ :=
    scanDir_spec N st.costs root (diagonalsOf root ++ orthogonalOf root) (ivecMax, 255)
  by_cases hfail :
      (scanDir N st.costs root (diagonalsOf root ++ orthogonalOf root)
        (ivecMax, 255)).1 = ivecMax ∨
      (scanDir N st.costs root (diagonalsOf root ++ orthogonalOf root)
        (ivecMax, 255)).2 = 255
  · rw [if_pos hfail] at h
    exact Except.noConfusion h
  · rw [if_neg hfail] at h
    push_neg at hfail
    rcases s3 with heq | ⟨pos, hpos, hbp, h1, h2⟩
    · exact absurd (congrArg Prod.snd heq) hfail.2
    · obtain ⟨off, hoff, hoe⟩ := by
        rw [scanList_eq] at hpos
        exact List.mem_map.mp hpos
      subst hoe
      rw [Cell.add_sub_cancel_left] at h1
      obtain ⟨d, hd1, hd2, hd3⟩ := offsets_encode off hoff
      rw [h1, hd1] at h
      injection h with h
      refine ⟨off, d, hoff, hbp, ?_, ?_, hd1, hd2, hd3, h.symm⟩
      · rw [← h2]
        exact hfail.2
      · intro p hp hbnd
        rw [← h2]
        exact s2 (root + p) (nbr_mem_scanList root hp) hbnd

theorem processCell_inv {N : ℕ} {P : Finset Cell} {t root : Cell} {rest : List Cell}
    {st st' : BuildSt}
    (hInv : Inv N P t st) (hq : st.queue = root :: rest)
    (h : processCell N root { st with queue := rest } = .ok st') :
    Inv N P t st' := by
  have hroot_mem : root ∈ st.queue := by
    rw [hq]
    exact List.mem_cons_self _ _
  have hroot_seen : root ∈ st.seen := hInv.q_seen _ hroot_mem
  have hroot_bnd : inBounds N root = true := hInv.q_bounds _ hroot_mem
  have hroot_pass : root ∉ P := hInv.q_pass _ hroot_mem
  unfold processCell at h
  obtain ⟨stO, hO, h⟩ := bind_ok_elim h
  obtain ⟨stD, hD, h⟩ := bind_ok_elim h
  have eO : ExpandOut N (st.costs root) 1 (orthogonalOf root)
      { st with queue := rest } stO := expand_spec hO
  have eD : ExpandOut N (st.costs root) 2 (diagonalsOf root) stO stD := expand_spec hD
  obtain ⟨off0, d, hoff0, hbnd0, hne255, hmin, henc, hdle, hdec, hst'⟩ :=
    directionStep_ok h
  obtain ⟨new1, hq1, hn1, hc1⟩ := eO.queue_new
  obtain ⟨new2, hq2, hn2, hc2⟩ := eD.queue_new
  have hmonoO : st.seen ⊆ stO.seen := eO.seen_mono
  have hmonoD : st.seen ⊆ stD.seen := hmonoO.trans eD.seen_mono
  have hfrozD : ∀ c ∈ st.seen, stD.costs c = st.costs c := by
    intro c hc
    rw [eD.costs_frozen c (hmonoO hc)]
    exact eO.costs_frozen c hc
  have hfieldD : stD.field = st.field := eD.field_eq.trans eO.field_eq
  have hqD : stD.queue = rest ++ (new1 ++ new2) := by
    rw [hq2, hq1, List.append_assoc]
  have hall8 : ∀ o ∈ offsets8, root + o ∈ stD.seen := by
    intro o ho
    have hmem := nbr_mem_scanList root ho
    rcases List.mem_append.mp hmem with hmm | hmm
    · exact eD.seen_list _ hmm
    · exact eD.seen_mono (eO.seen_list _ hmm)
  have hrootD : stD.costs root = st.costs root := hfrozD root hroot_seen
  have hstrict : root ≠ t → stD.costs (root + off0) < stD.costs root := by
    intro hne
    obtain ⟨op, hop, hbp, hsp, hlt⟩ := hInv.q_par root hroot_mem hne
    have h1 : stD.costs (root + op) = st.costs (root + op) := hfrozD _ hsp
    have h2 := hmin op hop hbp
    omega
  have hnotP0 : root + off0 ∉ P := by
    intro hmem
    have := hfrozD (root + off0) (hInv.p_seen _ hmem)
    rw [hInv.p_cost _ hmem] at this
    exact hne255 this
  have hnew_par : ∀ c ∈ new1 ++ new2, hasParent N stD c := by
    intro c hc
    rcases List.mem_append.mp hc with hcm | hcm
    · obtain ⟨hL, hfresh, hcseen, hcb, hcost, h255⟩ := hn1 c hcm
      obtain ⟨o, ho, rfl⟩ := mem_orth_offsets hL
      refine ⟨(-o.1, -o.2), offsets_neg_mem o ho, ?_⟩
      rw [Cell.add_neg_cancel]
      refine ⟨hroot_bnd, hmonoD hroot_seen, ?_⟩
      have hcostD : stD.costs (root + o) = st.costs root + 1 := by
        rw [eD.costs_frozen _ hcseen]
        exact hcost
      omega
    · obtain ⟨hL, hfresh, hcseen, hcb, hcost, h255⟩ := hn2 c hcm
      obtain ⟨o, ho, rfl⟩ := mem_diag_offsets hL
      refine ⟨(-o.1, -o.2), offsets_neg_mem o ho, ?_⟩
      rw [Cell.add_neg_cancel]
      refine ⟨hroot_bnd, hmonoD hroot_seen, ?_⟩
      have hcostO : stO.costs root = st.costs root := eO.costs_frozen root hroot_seen
      omega
  have hnew_seen : ∀ c ∈ new1 ++ new2, c ∈ stD.seen := by
    intro c hc
    rcases List.mem_append.mp hc with hcm | hcm
    · exact eD.seen_mono (hn1 c hcm).2.2.1
    · exact (hn2 c hcm).2.2.1
  have hnew_bnd : ∀ c ∈ new1 ++ new2, inBounds N c = true := by
    intro c hc
    rcases List.mem_append.mp hc with hcm | hcm
    · exact (hn1 c hcm).2.2.2.1
    · exact (hn2 c hcm).2.2.2.1
  have hnew_fresh : ∀ c ∈ new1 ++ new2, c ∉ st.seen := by
    intro c hc
    rcases List.mem_append.mp hc with hcm | hcm
    · exact (hn1 c hcm).2.1
    · exact fun hcs => (hn2 c hcm).2.1 (hmonoO hcs)
  have hseen_conv : ∀ c ∈ stD.seen, c ∉ st.seen →
      c ∈ new1 ++ new2 ∨ inBounds N c = false := by
    intro c hc hcs
    by_cases hcO : c ∈ stO.seen
    · rcases hc1 c hcO hcs with hcm | hcm
      · exact Or.inl (List.mem_append_left _ hcm)
      · exact Or.inr hcm
    · rcases hc2 c hc hcO with hcm | hcm
      · exact Or.inl (List.mem_append_right _ hcm)
      · exact Or.inr hcm
  subst hst'
  refine
    { t_seen := hmonoD hInv.t_seen
      t_cost := ?_
      p_seen := fun p hp => hmonoD (hInv.p_seen p hp)
      p_cost := ?_
      q_seen := ?_
      q_bounds := ?_
      q_pass := ?_
      q_par := ?_
      cost_le := ?_
      f_le := ?_
      done_dir := ?_
      done_nbrs := ?_ }
  · show stD.costs t = 0
    rw [hfrozD t hInv.t_seen]
    exact hInv.t_cost
  · intro p hp
    show stD.costs p = 255
    rw [hfrozD p (hInv.p_seen p hp)]
    exact hInv.p_cost p hp
  · intro c hc
    show c ∈ stD.seen
    rw [show ({ stD with field := setGrid stD.field root d } : BuildSt).queue =
      stD.queue from rfl, hqD] at hc
    rcases List.mem_append.mp hc with hcm | hcm
    · exact hmonoD (hInv.q_seen c (by rw [hq]; exact List.mem_cons_of_mem _ hcm))
    · exact hnew_seen c hcm
  · intro c hc
    rw [show ({ stD with field := setGrid stD.field root d } : BuildSt).queue =
      stD.queue from rfl, hqD] at hc
    rcases List.mem_append.mp hc with hcm | hcm
    · exact hInv.q_bounds c (by rw [hq]; exact List.mem_cons_of_mem _ hcm)
    · exact hnew_bnd c hcm
  · intro c hc
    rw [show ({ stD with field := setGrid stD.field root d } : BuildSt).queue =
      stD.queue from rfl, hqD] at hc
    rcases List.mem_append.mp hc with hcm | hcm
    · exact hInv.q_pass c (by rw [hq]; exact List.mem_cons_of_mem _ hcm)
    · exact fun hcP => hnew_fresh c hcm (hInv.p_seen c hcP)
  · intro c hc hcne
    rw [show ({ stD with field := setGrid stD.field root d } : BuildSt).queue =
      stD.queue from rfl, hqD] at hc
    rcases List.mem_append.mp hc with hcm | hcm
    · have hcq : c ∈ st.queue := by
        rw [hq]
        exact List.mem_cons_of_mem _ hcm
      obtain ⟨op, hop, hbp, hsp, hlt⟩ := hInv.q_par c hcq hcne
      refine ⟨op, hop, hbp, hmonoD hsp, ?_⟩
      show stD.costs (c + op) < stD.costs c
      rw [hfrozD _ hsp, hfrozD _ (hInv.q_seen c hcq)]
      exact hlt
    · exact hnew_par c hcm
  · intro c
    show stD.costs c ≤ 255
    rcases eD.costs_cases c with hcc | hcc
    · rw [hcc]
      rcases eO.costs_cases c with hco | hco
      · rw [hco]
        exact hInv.cost_le c
      · rw [hco.1]
        exact hco.2
    · rw [hcc.1]
      exact hcc.2
  · intro c
    show setGrid stD.field root d c ≤ 8
    unfold setGrid
    by_cases hcr : c = root
    · rw [if_pos hcr]
      exact hdle
    · rw [if_neg hcr, hfieldD]
      exact hInv.f_le c
  · intro c hc hcb hcP hcne hcq
    have hcq' : c ∉ stD.queue := hcq
    have hcseen : c ∈ stD.seen := hc
    by_cases hcr : c = root
    · subst hcr
      refine ⟨off0, hoff0, ?_, hbnd0, hnotP0, hall8 off0 hoff0, ?_⟩
      · show u8_to_vector (setGrid stD.field c d c) = some off0
        unfold setGrid
        rw [if_pos rfl]
        exact hdec
      · show stD.costs (c + off0) < stD.costs c
        exact hstrict hcne
    · by_cases hcs : c ∈ st.seen
      · have hcnq : c ∉ st.queue := by
          rw [hq]
          intro hcm
          rcases List.mem_cons.mp hcm with hce | hce
          · exact hcr hce
          · exact hcq' (by rw [hqD]; exact List.mem_append_left _ hce)
        obtain ⟨off, hoff, hfd, hfb, hfP, hfs, hflt⟩ :=
          hInv.done_dir c hcs hcb hcP hcne hcnq
        refine ⟨off, hoff, ?_, hfb, hfP, hmonoD hfs, ?_⟩
        · show u8_to_vector (setGrid stD.field root d c) = some off
          unfold setGrid
          rw [if_neg hcr, hfieldD]
          exact hfd
        · show stD.costs (c + off) < stD.costs c
          rw [hfrozD _ hfs, hfrozD _ hcs]
          exact hflt
      · rcases hseen_conv c hcseen hcs with hcm | hcm
        · exact absurd (by rw [hqD]; exact List.mem_append_right _ hcm) hcq'
        · rw [hcb] at hcm
          exact Bool.noConfusion hcm
  · intro c hc hcb hcP hcq off hoff
    have hcq' : c ∉ stD.queue := hcq
    have hcseen : c ∈ stD.seen := hc
    by_cases hcr : c = root
    · subst hcr
      exact hall8 off hoff
    · by_cases hcs : c ∈ st.seen
      · have hcnq : c ∉ st.queue := by
          rw [hq]
          intro hcm
          rcases List.mem_cons.mp hcm with hce | hce
          · exact hcr hce
          · exact hcq' (by rw [hqD]; exact List.mem_append_left _ hce)
        exact hmonoD (hInv.done_nbrs c hcs hcb hcP hcnq off hoff)
      · rcases hseen_conv c hcseen hcs with hcm | hcm
        · exact absurd (by rw [hqD]; exact List.mem_append_right _ hcm) hcq'
        · rw [hcb] at hcm
          exact Bool.noConfusion hcm

theorem bfsLoop_inv {N : ℕ} {P : Finset Cell} {t : Cell} :
    ∀ (fuel : ℕ) {st st' : BuildSt}, bfsLoop N fuel st = .ok st' →
      Inv N P t st → Inv N P t st' ∧ st'.queue = []
  | 0, st, st', h => fun _ => Except.noConfusion h
  | fuel + 1, st, st', h => by
      intro hInv
      cases hq : st.queue with
      | nil =>
          simp only [bfsLoop, hq] at h
          injection h with h
          subst h
          exact ⟨hInv, hq⟩
      | cons root rest =>
          simp only [bfsLoop, hq] at h
          obtain ⟨st1, hp, h2⟩ := bind_ok_elim h
          exact bfsLoop_inv fuel h2 (processCell_inv hInv hq hp)

theorem inv_init {N : ℕ} {P : Finset Cell} {t : Cell}
    (ht : inBounds N t = true) (htP : t ∉ P) :
    Inv N P t
      { queue := [t], seen := insert t P,
        costs := fun c => if c ∈ P then 255 else 0, field := fun _ => 0 } := by
  refine
    { t_seen := Finset.mem_insert_self _ _
      t_cost := by simp [htP]
      p_seen := fun p hp => Finset.mem_insert_of_mem hp
      p_cost := fun p hp => by simp [hp]
      q_seen := ?_
      q_bounds := ?_
      q_pass := ?_
      q_par := ?_
      cost_le := ?_
      f_le := fun c => by norm_num
      done_dir := ?_
      done_nbrs := ?_ }
  · intro c hc
    rw [List.mem_singleton] at hc
    subst hc
    exact Finset.mem_insert_self _ _
  · intro c hc
    rw [List.mem_singleton] at hc
    subst hc
    exact ht
  · intro c hc
    rw [List.mem_singleton] at hc
    subst hc
    exact htP
  · intro c hc hcne
    rw [List.mem_singleton] at hc
    exact absurd hc hcne
  · intro c
    by_cases hc : c ∈ P <;> simp [hc]
  · intro c hc hcb hcP hcne hcq
    rcases Finset.mem_insert.mp hc with he | he
    · exact absurd he hcne
    · exact absurd he hcP
  · intro c hc hcb hcP hcq
    rcases Finset.mem_insert.mp hc with he | he
    · subst he
      exact absurd (List.mem_singleton_self _) hcq
    · exact absurd he hcP

theorem buildLoopState_ok {N : ℕ} {target : ℕ × ℕ} {imp : Finset (ℕ × ℕ)}
    {st : BuildSt} (h : buildLoopState N target imp = .ok st) :
    target ∉ imp ∧ inBounds N (castCell target) = true ∧
    Inv N (castSet imp) (castCell target) st ∧ st.queue = [] := by
  simp only [buildLoopState] at h
  by_cases h1 : target ∈ imp
  · rw [if_pos h1] at h
    exact Except.noConfusion h
  · rw [if_neg h1] at h
    by_cases h2 : ¬ inBounds N (castCell target) = true
    · rw [if_pos h2] at h
      exact Except.noConfusion h
    · rw [if_neg h2] at h
      push_neg at h2
      by_cases h3 : ¬ ∀ b ∈ imp, inBounds N (castCell b) = true
      · rw [if_pos h3] at h
        exact Except.noConfusion h
      · rw [if_neg h3] at h
        have htP : castCell target ∉ castSet imp := fun hmem =>
          h1 (mem_castSet_iff.mp hmem)
        have hfin := bfsLoop_inv (N * N + 1) h (inv_init h2 htP)
        exact ⟨h1, h2, hfin.1, hfin.2⟩

theorem build_ok_exists {N : ℕ} {target : ℕ × ℕ} {imp : Finset (ℕ × ℕ)}
    (h : buildOk N target imp = true) :
    ∃ st, buildLoopState N target imp = .ok st ∧
      buildField N target imp = setGrid
        (fun c => if c ∈ castSet imp then 255 else st.field c)
        (castCell target) IMPASSABLE ∧
      buildCosts N target imp = st.costs := by
  unfold buildOk build_flow_field at h
  unfold buildField build_flow_field buildCosts
  cases hb : buildLoopState N target imp with
  | error e =>
      rw [hb] at h
      exact absurd h (by simp [Except.map, Except.toOption])
  | ok st =>
      exact ⟨st, rfl, rfl, rfl⟩

theorem reach_sub {N : ℕ} {P : Finset Cell} {t : Cell} {st : BuildSt}
    (hInv : Inv N P t st) (hq : st.queue = [])
    (ht : inBounds N t = true) (htP : t ∉ P) :
    ∀ (k : ℕ) (c : Cell), c ∈ (growReach N P)^[k] {t} →
      c ∈ st.seen ∧ inBounds N c = true ∧ c ∉ P := by
  intro k
  induction k with
  | zero =>
      intro c hc
      simp only [Function.iterate_zero, id_eq] at hc
      rw [Finset.mem_singleton] at hc
      subst hc
      exact ⟨hInv.t_seen, ht, htP⟩
  | succ n ih =>
      intro c hc
      rw [Function.iterate_succ_apply'] at hc
      unfold growReach at hc
      rcases Finset.mem_union.mp hc with hc | hc
      · exact ih c hc
      · have hm := Finset.mem_filter.mp hc
        obtain ⟨hcP, off, hoff, hr⟩ := hm.2
        have hgrid := mem_gridCells.mp hm.1
        obtain ⟨hrseen, hrbnd, hrP⟩ := ih _ hr
        have hce : c = (c - off) + off := (Cell.sub_add_cancel c off).symm
        have hnbrs := hInv.done_nbrs (c - off) hrseen hrbnd hrP
          (by rw [hq]; exact List.not_mem_nil _) off hoff
        exact ⟨by rw [hce]; exact hnbrs, hgrid, hcP⟩

theorem chainReaches_self {fld : Cell → ℕ} {t : Cell} :
    ∀ k, chainReaches fld t k t = true
  | 0 => by simp [chainReaches]
  | k + 1 => by simp [chainReaches]

theorem chainList_head (fld : Cell → ℕ) (t : Cell) :
    ∀ (k : ℕ) (c : Cell), (chainList fld t k c).head? = some c
  | 0, c => rfl
  | k + 1, c => by
      unfold chainList
      by_cases h : c = t
      · rw [if_pos h]
        rfl
      · rw [if_neg h]
        rfl

theorem chainReaches_mono {fld : Cell → ℕ} {t : Cell} :
    ∀ (k k' : ℕ) (c : Cell), k ≤ k' → chainReaches fld t k c = true →
      chainReaches fld t k' c = true
  | 0, k', c, hle, h => by
      have hct : c = t := by simpa [chainReaches] using h
      subst hct
      exact chainReaches_self k'
  | k + 1, k', c, hle, h => by
      obtain ⟨k'', rfl⟩ : ∃ k'', k' = k'' + 1 := ⟨k' - 1, by omega⟩
      have h2 : (decide (c = t) || chainReaches fld t k (stepCell fld c)) = true := h
      rcases (Bool.or_eq_true _ _).mp h2 with hh | hh
      · have hct : c = t := of_decide_eq_true hh
        subst hct
        exact chainReaches_self _
      · show (decide (c = t) || chainReaches fld t k'' (stepCell fld c)) = true
        rw [chainReaches_mono k k'' _ (by omega) hh]
        simp

theorem build_final {N : ℕ} {target : ℕ × ℕ} {imp : Finset (ℕ × ℕ)}
    (hok : buildOk N target imp = true) :
    ∃ st, Inv N (castSet imp) (castCell target) st ∧ st.queue = [] ∧
      target ∉ imp ∧ inBounds N (castCell target) = true ∧
      buildCosts N target imp = st.costs ∧
      (∀ c, c ≠ castCell target → c ∉ castSet imp →
        buildField N target imp c = st.field c) ∧
      (∀ c, buildField N target imp c ≤ 8 ∨ buildField N target imp c = 9 ∨
        buildField N target imp c = 255) := by
  obtain ⟨st, hb, hf, hc⟩ := build_ok_exists hok
  obtain ⟨h1, h2, hInv, hq⟩ := buildLoopState_ok hb
  refine ⟨st, hInv, hq, h1, h2, hc, ?_, ?_⟩
  · intro c hct hcP
    rw [hf]
    unfold setGrid
    rw [if_neg hct]
    simp only []
    rw [if_neg hcP]
  · intro c
    rw [hf]
    unfold setGrid
    by_cases hct : c = castCell target
    · rw [if_pos hct]
      exact Or.inr (Or.inl rfl)
    · rw [if_neg hct]
      simp only []
      by_cases hcP : c ∈ castSet imp
      · rw [if_pos hcP]
        exact Or.inr (Or.inr rfl)
      · rw [if_neg hcP]
        exact Or.inl (hInv.f_le c)

theorem chain_wf {N : ℕ} {P : Finset Cell} {t : Cell} {st : BuildSt}
    (hInv : Inv N P t st) (hq : st.queue = []) {fld : Cell → ℕ}
    (hfld : ∀ c, c ≠ t → c ∉ P → fld c = st.field c) :
    ∀ (k : ℕ) (c : Cell), c ∈ st.seen → inBounds N c = true → c ∉ P →
      List.Chain' (fun a b => st.costs b < st.costs a) (chainList fld t k c) := by
  intro k
  induction k with
  | zero =>
      intro c _ _ _
      exact List.chain'_singleton c
  | succ n ih =>
      intro c hcs hcb hcP
      unfold chainList
      by_cases hct : c = t
      · rw [if_pos hct]
        exact List.chain'_singleton c
      · rw [if_neg hct]
        obtain ⟨off, hoff, hfd, hfb, hfP, hfs, hflt⟩ :=
          hInv.done_dir c hcs hcb hcP hct (by rw [hq]; exact List.not_mem_nil c)
        have hstep : stepCell fld c = c + off := by
          unfold stepCell
          rw [hfld c hct hcP, hfd]
          rfl
        rw [List.chain'_cons']
        constructor
        · intro y hy
          rw [hstep, chainList_head] at hy
          injection hy with hy
          subst hy
          exact hflt
        · rw [hstep]
          exact ih (c + off) hfs hfb hfP

theorem chain_reach {N : ℕ} {P : Finset Cell} {t : Cell} {st : BuildSt}
    (hInv : Inv N P t st) (hq : st.queue = []) {fld : Cell → ℕ}
    (hfld : ∀ c, c ≠ t → c ∉ P → fld c = st.field c) :
    ∀ (k : ℕ) (c : Cell), c ∈ st.seen → inBounds N c = true → c ∉ P →
      ((gridCells N).filter fun x => st.costs x < st.costs c).card ≤ k →
      chainReaches fld t (k + 1) c = true := by
  intro k
  induction k with
  | zero =>
      intro c hcs hcb hcP hcard
      by_cases hct : c = t
      · subst hct
        exact chainReaches_self _
      · exfalso
        obtain ⟨off, hoff, hfd, hfb, hfP, hfs, hflt⟩ :=
          hInv.done_dir c hcs hcb hcP hct (by rw [hq]; exact List.not_mem_nil c)
        have hmem : c + off ∈ (gridCells N).filter fun x => st.costs x < st.costs c :=
          Finset.mem_filter.mpr ⟨mem_gridCells.mpr hfb, hflt⟩
        have := Finset.card_pos.mpr ⟨c + off, hmem⟩
        omega
  | succ n ih =>
      intro c hcs hcb hcP hcard
      by_cases hct : c = t
      · subst hct
        exact chainReaches_self _
      · obtain ⟨off, hoff, hfd, hfb, hfP, hfs, hflt⟩ :=
          hInv.done_dir c hcs hcb hcP hct (by rw [hq]; exact List.not_mem_nil c)
        have hstep : stepCell fld c = c + off := by
          unfold stepCell
          rw [hfld c hct hcP, hfd]
          rfl
        have hnext : c + off ∈ (gridCells N).filter fun x => st.costs x < st.costs c :=
          Finset.mem_filter.mpr ⟨mem_gridCells.mpr hfb, hflt⟩
        have hsub : ((gridCells N).filter fun x => st.costs x < st.costs (c + off)) ⊆
            ((gridCells N).filter fun x => st.costs x < st.costs c).erase (c + off) := by
          intro x hx
          have hx' := Finset.mem_filter.mp hx
          refine Finset.mem_erase.mpr ⟨?_, Finset.mem_filter.mpr ⟨hx'.1, hx'.2.trans hflt⟩⟩
          intro he
          subst he
          exact absurd hx'.2 (lt_irrefl _)
        have hcard2 :
            ((gridCells N).filter fun x => st.costs x < st.costs (c + off)).card ≤ n := by
          have hle := Finset.card_le_card hsub
          rw [Finset.card_erase_of_mem hnext] at hle
          omega
        have hr := ih (c + off) hfs hfb hfP hcard2
        show (decide (c = t) || chainReaches fld t (n + 1) (stepCell fld c)) = true
        rw [hstep, hr]
        simp

/-- C1: in every successfully built field, for every cell reachable from the
target through in-bounds non-impassable cells, repeatedly stepping in the
stored direction reaches the target cell within `N²` steps, and the chain of
visited cells never revisits a cell. -/
theorem c1_chain_reaches_target (N : ℕ) (target : ℕ × ℕ) (imp : Finset (ℕ × ℕ))
    (c : Cell) (hok : buildOk N target imp = true)
    (hreach : c ∈ reachableSet N imp target) :
    chainReaches (buildField N target imp) (castCell target) (N * N) c = true ∧
    (chainList (buildField N target imp) (castCell target) (N * N) c).Pairwise
      (· ≠ ·) := by
  obtain ⟨st, hInv, hq, h1, h2, hcosts, hfld, hrange⟩ := build_final hok
  have htP : castCell target ∉ castSet imp := fun hmem => h1 (mem_castSet_iff.mp hmem)
  obtain ⟨hcs, hcb, hcP⟩ :=
    reach_sub hInv hq h2 htP (N * N) c (by exact hreach)
  have hN : 1 ≤ N := pos_of_inBounds h2
  have hNN : 1 ≤ N * N := Nat.mul_le_mul hN hN
  constructor
  · have hsub : ((gridCells N).filter fun x => st.costs x < st.costs c) ⊆
        (gridCells N).erase c := by
      intro x hx
      have hx' := Finset.mem_filter.mp hx
      refine Finset.mem_erase.mpr ⟨?_, hx'.1⟩
      intro he
      subst he
      exact absurd hx'.2 (lt_irrefl _)
    have hcard : ((gridCells N).filter fun x => st.costs x < st.costs c).card ≤
        N * N - 1 := by
      have hle := Finset.card_le_card hsub
      rw [Finset.card_erase_of_mem (mem_gridCells.mpr hcb), card_gridCells] at hle
      exact hle
    have hr := chain_reach hInv hq hfld (N * N - 1) c hcs hcb hcP hcard
    have heq : N * N - 1 + 1 = N * N := by omega
    rw [heq] at hr
    exact hr
  · have hch := chain_wf hInv hq hfld (N * N) c hcs hcb hcP
    letI : IsTrans Cell (fun a b => st.costs b < st.costs a) :=
      ⟨fun a b d hab hbd => hbd.trans hab⟩
    have hpw := List.chain'_iff_pairwise.mp hch
    exact hpw.imp fun {a b} hab he => absurd (he ▸ hab) (lt_irrefl _)

/-- C1 (witness): the spec scenario — 4×4 grid, target `(2, 2)`, no
impassable cells — instantiated at the cell `(0, 0)`. -/
theorem c1_witness :
    chainReaches (buildField 4 (2, 2) ∅) (castCell (2, 2)) 16 ((0, 0) : Cell) = true ∧
    (chainList (buildField 4 (2, 2) ∅) (castCell (2, 2)) 16 ((0, 0) : Cell)).Pairwise
      (· ≠ ·) :=
  c1_chain_reaches_target 4 (2, 2) ∅ (0, 0) (by decide) (by decide)

/-- C5 (amended): in every successfully built field, every wavefront-reached
cell other than the target (impassable cells are never wavefront-reached)
holds a direction code whose decoded offset points to an in-bounds neighbour
of strictly lower wavefront cost; cells sealed off from the target keep the
initial code and are exempt. -/
theorem c5_amended_descent (N : ℕ) (target : ℕ × ℕ) (imp : Finset (ℕ × ℕ))
    (c : Cell) (hok : buildOk N target imp = true)
    (hreach : c ∈ reachableSet N imp target) (hne : c ≠ castCell target) :
    ∃ off ∈ offsets8, u8_to_vector (buildField N target imp c) = some off ∧
      inBounds N (c + off) = true ∧
      buildCosts N target imp (c + off) < buildCosts N target imp c := by
  obtain ⟨st, hInv, hq, h1, h2, hcosts, hfld, hrange⟩ := build_final hok
  have htP : castCell target ∉ castSet imp := fun hmem => h1 (mem_castSet_iff.mp hmem)
  obtain ⟨hcs, hcb, hcP⟩ :=
    reach_sub hInv hq h2 htP (N * N) c (by exact hreach)
  obtain ⟨off, hoff, hfd, hfb, hfP, hfs, hflt⟩ :=
    hInv.done_dir c hcs hcb hcP hne (by rw [hq]; exact List.not_mem_nil c)
  refine ⟨off, hoff, ?_, hfb, ?_⟩
  · rw [hfld c hne hcP]
    exact hfd
  · rw [hcosts]
    exact hflt

/-- C5 (amended, witness): the descent property instantiated on the 4×4
build targeting `(2, 2)` at the reachable cell `(0, 0)`. -/
theorem c5_witness :
    ∃ off ∈ offsets8, u8_to_vector (buildField 4 (2, 2) ∅ (0, 0)) = some off ∧
      inBounds 4 (((0, 0) : Cell) + off) = true ∧
      buildCosts 4 (2, 2) ∅ (((0, 0) : Cell) + off) < buildCosts 4 (2, 2) ∅ (0, 0) :=
  c5_amended_descent 4 (2, 2) ∅ (0, 0) (by decide) (by decide) (by decide)

/-- C6 (amended): `is_walkable` is total (it returns the negated
impassable-set membership of the grid cell for every world position), and
sampling a successfully built field returns a value exactly when the world
position's grid cell lies inside the `N × N` array — outside it the unchecked
indexing panics. -/
theorem c6_amended_reads (ffs : FlowFields) (q p : ℤ × ℤ) (N : ℕ)
    (target : ℕ × ℕ) (imp : Finset (ℕ × ℕ)) (hok : buildOk N target imp = true) :
    is_walkable ffs q = !decide (world_to_grid q ∈ ffs.impassable) ∧
    ((world_to_grid p).1 < N ∧ (world_to_grid p).2 < N →
      (FlowField.get N (buildField N target imp) p).isSome = true) ∧
    (¬ ((world_to_grid p).1 < N ∧ (world_to_grid p).2 < N) →
      FlowField.get N (buildField N target imp) p = none) := by
  obtain ⟨st, hInv, hq, h1, h2, hcosts, hfld, hrange⟩ := build_final hok
  refine ⟨by simp [is_walkable], ?_, ?_⟩
  · intro hb
    unfold FlowField.get
    rw [if_pos hb]
    exact u8_to_vector_isSome (hrange _)
  · intro hb
    unfold FlowField.get
    rw [if_neg hb]

/-- C6 (amended, witness): sampling the built 4×4 field at the in-bounds
world position `(100, 100)` returns a value. -/
theorem c6_witness :
    (FlowField.get 4 (buildField 4 (2, 2) ∅) (100, 100)).isSome = true :=
  (c6_amended_reads ⟨[], ∅⟩ (100, 100) (100, 100) 4 (2, 2) ∅ (by decide)).2.1
    (by decide)

end TinySwords
